import Mathlib

/-!
# CabanaPF PFHub benchmark 1a: spectral solver verification

A shallow embedding of src/PFHub.hpp from the CabanaPF repository: the
Fourier-space Laplacian operator builder, the pointwise chemical potential
evaluator, the semi-implicit spectral time step, the custom and CHiMaD 2023
initial-condition generators, and the subproblem identity strings.

Machine doubles are modelled as real numbers, Kokkos complex values as Lean
complex numbers, Kokkos views as functions on Fin indices, and the external
FFT collaborator (PFVariables::fft_forward / fft_inverse) as the exact
discrete Fourier transform pair.
-/

namespace CabanaPF

/-- Model constant: static constexpr double _SIZE = 200. -/
noncomputable def SIZE : ℝ := 200

/-- Model constant: static constexpr double _KAPPA = 2. -/
noncomputable def KAPPA : ℝ := 2

/-- Model constant: static constexpr double _M = 5. -/
noncomputable def M : ℝ := 5

/-- Model constant: static constexpr double _RHO = 5. -/
noncomputable def RHO : ℝ := 5

/-- Model constant: static constexpr double _C_ALPHA = .3 -/
noncomputable def C_ALPHA : ℝ := 0.3

/-- Model constant: static constexpr double _C_BETA = .7 -/
noncomputable def C_BETA : ℝ := 0.7

/-- cell_size = _SIZE / grid_points, from the PFHub1aBase constructor. -/
noncomputable def cell_size (grid_points : ℕ) : ℝ := SIZE / grid_points

/-- Index-to-wavenumber folding used inside PFHub1aBase::initialize:
the C++ conditional `i > points / 2 ? i - points : 2 * i == points ? 0 : i`
with integer division `points / 2`. -/
def fold (points k : ℕ) : ℤ :=
  if k > points / 2 then (k : ℤ) - (points : ℤ)
  else if 2 * k = points then 0
  else (k : ℤ)

/-- One wavenumber component from PFHub1aBase::initialize:
`cdouble(0.0, 2 * M_PI / points) * static_cast<double>(folded index)`. -/
noncomputable def kx (points i : ℕ) : ℂ :=
  (((2 * Real.pi / (points : ℝ)) : ℝ) : ℂ) * Complex.I * ((fold points i : ℤ) : ℂ)

/-- The spectral operator written by PFHub1aBase::initialize:
`laplacian(i, j) = (kx * kx + ky * ky) * (points * points) / (SIZE * SIZE)`. -/
noncomputable def laplacian (points i j : ℕ) : ℂ :=
  (kx points i * kx points i + kx points j * kx points j) *
    (((points : ℝ) * (points : ℝ) : ℝ) : ℂ) / (((SIZE * SIZE : ℝ)) : ℂ)

/-- The pointwise chemical potential from PFHub1aBase::calc_dfdc:
`RHO * (2.0 * (c - C_ALPHA) * (C_BETA - c) * (C_BETA - c)
      - 2.0 * (C_BETA - c) * (c - C_ALPHA) * (c - C_ALPHA))`. -/
noncomputable def calc_dfdc (c : ℂ) : ℂ :=
  (RHO : ℂ) * (2 * (c - (C_ALPHA : ℂ)) * ((C_BETA : ℂ) - c) * ((C_BETA : ℂ) - c) -
               2 * ((C_BETA : ℂ) - c) * (c - (C_ALPHA : ℂ)) * (c - (C_ALPHA : ℂ)))

/-- The complex phase factor exp(2 pi I d / N) underlying the discrete
Fourier transform pair used to model fft_forward / fft_inverse. -/
noncomputable def phase (N : ℕ) (d : ℤ) : ℂ :=
  Complex.exp (2 * (Real.pi : ℂ) * Complex.I * (d : ℂ) / (N : ℂ))

/-- One-dimensional forward DFT (unnormalized). -/
noncomputable def dft1 (N : ℕ) (f : Fin N → ℂ) (k : Fin N) : ℂ :=
  ∑ p : Fin N, f p * phase N (-(((k : ℕ) : ℤ) * ((p : ℕ) : ℤ)))

/-- One-dimensional inverse DFT (normalized by 1/N). -/
noncomputable def idft1 (N : ℕ) (f : Fin N → ℂ) (m : Fin N) : ℂ :=
  (∑ k : Fin N, f k * phase N (((k : ℕ) : ℤ) * ((m : ℕ) : ℤ))) / (N : ℂ)

/-- Two-dimensional forward DFT, modelling PFVariables::fft_forward. -/
noncomputable def dft2 (N : ℕ) (c : Fin N → Fin N → ℂ) (k l : Fin N) : ℂ :=
  dft1 N (fun p => dft1 N (c p) l) k

/-- Two-dimensional inverse DFT, modelling PFVariables::fft_inverse. -/
noncomputable def idft2 (N : ℕ) (f : Fin N → Fin N → ℂ) (m n : Fin N) : ℂ :=
  idft1 N (fun k => idft1 N (f k) n) m

/-- The mutable per-simulation state of PFHub1aBase: the laplacian view and
the two PFVariables fields c and df_dc (complex values stored as real and
imaginary components). -/
structure PFState (N : ℕ) where
  laplacian : Fin N → Fin N → ℂ
  c : Fin N → Fin N → ℂ
  dfdc : Fin N → Fin N → ℂ

/-- PFHub1aBase::calc_dfdc as a state transformer: recomputes the df_dc
field pointwise from c and touches nothing else. -/
noncomputable def calc_dfdcS (N : ℕ) (s : PFState N) : PFState N :=
  { s with dfdc := fun i j => calc_dfdc (s.c i j) }

/-- PFHub1aBase::step as a state transformer: calc_dfdc, forward transform
of c and df_dc, the semi-implicit pointwise update
`c_hat = (c_hat + dt * M * laplacian * df_dc_hat)
         / (1.0 + dt * M * KAPPA * laplacian * laplacian)`,
then the inverse transform of c only (df_dc is left in frequency space). -/
noncomputable def stepS (N : ℕ) (dt : ℝ) (s : PFState N) : PFState N :=
  let s1 := calc_dfdcS N s
  let c_hat := dft2 N s1.c
  let dfdc_hat := dft2 N s1.dfdc
  { s1 with
    c := idft2 N (fun i j =>
      (c_hat i j + (dt : ℂ) * (M : ℂ) * s1.laplacian i j * dfdc_hat i j) /
      (1 + (dt : ℂ) * (M : ℂ) * (KAPPA : ℂ) * s1.laplacian i j * s1.laplacian i j)),
    dfdc := dfdc_hat }

/-- PFHub1aBase::initialize as a state transformer: writes the laplacian
view from the folding rule and lets the problem-specific
initial_conditions populate c. -/
noncomputable def initializeS (N : ℕ) (ic : ℕ → ℕ → ℂ) (s : PFState N) : PFState N :=
  { s with
    laplacian := fun i j => laplacian N (i : ℕ) (j : ℕ),
    c := fun i j => ic (i : ℕ) (j : ℕ) }

/-- PFHub1aCustom::initial_conditions: the node value at (i, j) with the ten
integer coefficients N1..N10 (real component; the imaginary component is set
to 0, modelled here by the real-to-complex coercion). -/
noncomputable def custom_ic (gp : ℕ) (N1 N2 N3 N4 N5 N6 N7 N8 N9 N10 : ℤ) (i j : ℕ) : ℂ :=
  ((0.5 + 0.01 *
    (Real.cos ((N1 : ℝ) * Real.pi * (cell_size gp * (i : ℝ)) / 100) *
       Real.cos ((N2 : ℝ) * Real.pi * (cell_size gp * (j : ℝ)) / 100) +
     Real.cos ((N3 : ℝ) * Real.pi * (cell_size gp * (i : ℝ)) / 200) *
       Real.cos ((N3 : ℝ) * Real.pi * (cell_size gp * (i : ℝ)) / 200) *
       Real.cos ((N4 : ℝ) * Real.pi * (cell_size gp * (j : ℝ)) / 200) *
       Real.cos ((N4 : ℝ) * Real.pi * (cell_size gp * (j : ℝ)) / 200) +
     Real.cos ((N5 : ℝ) * Real.pi * (cell_size gp * (i : ℝ)) / 100 -
               (N6 : ℝ) * Real.pi * (cell_size gp * (j : ℝ)) / 100) *
       Real.cos ((N7 : ℝ) * Real.pi * (cell_size gp * (i : ℝ)) / 100 -
                 (N8 : ℝ) * Real.pi * (cell_size gp * (j : ℝ)) / 100) +
     Real.sin ((N9 : ℝ) * Real.pi * (cell_size gp * (i : ℝ)) / 100) +
     Real.sin ((N10 : ℝ) * Real.pi * (cell_size gp * (j : ℝ)) / 100)) : ℝ) : ℂ)

/-- PFHub1aCHiMaD2023::initial_conditions: the node value at (i, j)
(real component; imaginary component 0 via the coercion). -/
noncomputable def chimad_ic (gp : ℕ) (i j : ℕ) : ℂ :=
  ((0.5 + 0.01 *
    (Real.cos (3 * Real.pi * (cell_size gp * (i : ℝ)) / 100) *
       Real.cos (Real.pi * (cell_size gp * (j : ℝ)) / 25) +
     Real.cos (Real.pi * (cell_size gp * (i : ℝ)) / 25) *
       Real.cos (3 * Real.pi * (cell_size gp * (j : ℝ)) / 100) *
       Real.cos (Real.pi * (cell_size gp * (i : ℝ)) / 25) *
       Real.cos (3 * Real.pi * (cell_size gp * (j : ℝ)) / 100) +
     Real.cos (Real.pi * (cell_size gp * (i : ℝ)) / 100 -
               Real.pi * (cell_size gp * (j : ℝ)) / 20) *
       Real.cos (Real.pi * (cell_size gp * (i : ℝ)) / 50 -
                 Real.pi * (cell_size gp * (j : ℝ)) / 100)) : ℝ) : ℂ)

/-- PFHub1aCustom::subproblem_name: the stringstream chain
`"1aCustom_" << N1 << "_" << N2 << "_" << N3 << "_" << N5 << "_" << N6
<< "_" << N7 << "_" << N8 << "_" << N9 << "_" << N10` (N4 does not appear
in the source chain). -/
def custom_subproblem_name (N1 N2 N3 N4 N5 N6 N7 N8 N9 N10 : ℤ) : String :=
  "1aCustom_" ++ toString N1 ++ "_" ++ toString N2 ++ "_" ++ toString N3 ++ "_" ++
    toString N5 ++ "_" ++ toString N6 ++ "_" ++ toString N7 ++ "_" ++ toString N8 ++
    "_" ++ toString N9 ++ "_" ++ toString N10

/-- A concrete one-node state used to instantiate theorems about stepS. -/
noncomputable def witnessState : PFState 1 :=
  { laplacian := fun i j => laplacian 1 (i : ℕ) (j : ℕ),
    c := fun _ _ => 1,
    dfdc := fun _ _ => 0 }

/-! ## Helper lemmas -/

lemma phase_add (N : ℕ) (a b : ℤ) : phase N (a + b) = phase N a * phase N b := by
  unfold phase
  rw [← Complex.exp_add]
  congr 1
  push_cast
  ring

lemma phase_zero (N : ℕ) : phase N 0 = 1 := by
  unfold phase
  simp

lemma phase_nat_mul (N : ℕ) (k : ℕ) (d : ℤ) :
    phase N ((k : ℤ) * d) = phase N d ^ k := by
  unfold phase
  rw [← Complex.exp_nat_mul]
  congr 1
  push_cast
  ring

lemma phase_pow_self (N : ℕ) (hN : N ≠ 0) (d : ℤ) : phase N d ^ N = 1 := by
  rw [← phase_nat_mul]
  unfold phase
  have hN0 : (N : ℂ) ≠ 0 := Nat.cast_ne_zero.mpr hN
  have harg : 2 * (Real.pi : ℂ) * Complex.I * ((((N : ℤ) * d) : ℤ) : ℂ) / (N : ℂ) =
      (d : ℂ) * (2 * (Real.pi : ℂ) * Complex.I) := by
    push_cast
    field_simp
    ring
  rw [harg]
  exact Complex.exp_int_mul_two_pi_mul_I d

lemma phase_eq_one_iff (N : ℕ) (hN : N ≠ 0) (d : ℤ) :
    phase N d = 1 ↔ (N : ℤ) ∣ d := by
  have hN0 : (N : ℂ) ≠ 0 := Nat.cast_ne_zero.mpr hN
  have hpi : (2 : ℂ) * (Real.pi : ℂ) * Complex.I ≠ 0 := by
    have h1 : (Real.pi : ℂ) ≠ 0 := Complex.ofReal_ne_zero.mpr Real.pi_ne_zero
    simp [h1, Complex.I_ne_zero]
  unfold phase
  rw [Complex.exp_eq_one_iff]
  constructor
  · rintro ⟨n, hn⟩
    have h3 := congrArg (fun z : ℂ => z * (N : ℂ)) hn
    simp only at h3
    rw [div_mul_cancel₀ _ hN0] at h3
    have h2 : (2 * (Real.pi : ℂ) * Complex.I) * (d : ℂ) =
        (2 * (Real.pi : ℂ) * Complex.I) * ((n : ℂ) * (N : ℂ)) := by
      linear_combination h3
    have h4 : (d : ℂ) = (n : ℂ) * (N : ℂ) := mul_left_cancel₀ hpi h2
    have h5 : d = n * (N : ℤ) := by exact_mod_cast h4
    exact ⟨n, h5.trans (mul_comm _ _)⟩
  · rintro ⟨m, rfl⟩
    refine ⟨m, ?_⟩
    push_cast
    field_simp
    ring

lemma sum_phase (N : ℕ) (hN : 0 < N) (d : ℤ) :
    ∑ k : Fin N, phase N (((k : ℕ) : ℤ) * d) = if (N : ℤ) ∣ d then (N : ℂ) else 0 := by
  have hN0 : N ≠ 0 := hN.ne'
  have hrw : ∀ k : Fin N, phase N (((k : ℕ) : ℤ) * d) = phase N d ^ (k : ℕ) :=
    fun k => phase_nat_mul N (k : ℕ) d
  simp only [hrw]
  rw [Fin.sum_univ_eq_sum_range (fun m => phase N d ^ m) N]
  by_cases h : (N : ℤ) ∣ d
  · rw [if_pos h]
    have h1 : phase N d = 1 := (phase_eq_one_iff N hN0 d).2 h
    simp [h1]
  · rw [if_neg h]
    have h1 : phase N d ≠ 1 := fun hc => h ((phase_eq_one_iff N hN0 d).1 hc)
    rw [geom_sum_eq h1 N, phase_pow_self N hN0 d]
    simp

lemma natCast_dvd_sub_iff (N : ℕ) (m p : Fin N) :
    (N : ℤ) ∣ (((m : ℕ) : ℤ) - ((p : ℕ) : ℤ)) ↔ p = m := by
  constructor
  · rintro ⟨t, ht⟩
    have hm : ((m : ℕ) : ℤ) < (N : ℤ) := by exact_mod_cast m.isLt
    have hp : ((p : ℕ) : ℤ) < (N : ℤ) := by exact_mod_cast p.isLt
    have hm0 : (0 : ℤ) ≤ ((m : ℕ) : ℤ) := Int.ofNat_nonneg _
    have hp0 : (0 : ℤ) ≤ ((p : ℕ) : ℤ) := Int.ofNat_nonneg _
    have hNpos : (0 : ℤ) < (N : ℤ) := by exact_mod_cast m.pos
    have ht1 : t < 1 := by nlinarith
    have ht2 : -1 < t := by nlinarith
    have ht0 : t = 0 := by omega
    rw [ht0, mul_zero] at ht
    have hval : (m : ℕ) = (p : ℕ) := by omega
    exact (Fin.ext hval).symm
  · rintro rfl
    simp

lemma sum_phase_sub (N : ℕ) (m p : Fin N) :
    ∑ k : Fin N, phase N (((k : ℕ) : ℤ) * (((m : ℕ) : ℤ) - ((p : ℕ) : ℤ))) =
      if p = m then (N : ℂ) else 0 := by
  rw [sum_phase N m.pos]
  by_cases h : p = m
  · rw [if_pos ((natCast_dvd_sub_iff N m p).2 h), if_pos h]
  · rw [if_neg (fun hd => h ((natCast_dvd_sub_iff N m p).1 hd)), if_neg h]

lemma idft1_dft1 (N : ℕ) (f : Fin N → ℂ) (m : Fin N) : idft1 N (dft1 N f) m = f m := by
  have hN0 : (N : ℂ) ≠ 0 := Nat.cast_ne_zero.mpr m.pos.ne'
  unfold idft1 dft1
  have key : ∑ k : Fin N,
      (∑ p : Fin N, f p * phase N (-(((k : ℕ) : ℤ) * ((p : ℕ) : ℤ)))) *
        phase N (((k : ℕ) : ℤ) * ((m : ℕ) : ℤ)) = (N : ℂ) * f m := by
    calc ∑ k : Fin N,
        (∑ p : Fin N, f p * phase N (-(((k : ℕ) : ℤ) * ((p : ℕ) : ℤ)))) *
          phase N (((k : ℕ) : ℤ) * ((m : ℕ) : ℤ))
        = ∑ k : Fin N, ∑ p : Fin N,
            f p * (phase N (-(((k : ℕ) : ℤ) * ((p : ℕ) : ℤ))) *
              phase N (((k : ℕ) : ℤ) * ((m : ℕ) : ℤ))) := by
          refine Finset.sum_congr rfl fun k _ => ?_
          rw [Finset.sum_mul]
          exact Finset.sum_congr rfl fun p _ => by ring
      _ = ∑ p : Fin N, ∑ k : Fin N,
            f p * phase N (((k : ℕ) : ℤ) * (((m : ℕ) : ℤ) - ((p : ℕ) : ℤ))) := by
          rw [Finset.sum_comm]
          refine Finset.sum_congr rfl fun p _ => Finset.sum_congr rfl fun k _ => ?_
          have harg : -(((k : ℕ) : ℤ) * ((p : ℕ) : ℤ)) + ((k : ℕ) : ℤ) * ((m : ℕ) : ℤ) =
              ((k : ℕ) : ℤ) * (((m : ℕ) : ℤ) - ((p : ℕ) : ℤ)) := by ring
          rw [← phase_add, harg]
      _ = ∑ p : Fin N, f p * (if p = m then (N : ℂ) else 0) := by
          refine Finset.sum_congr rfl fun p _ => ?_
          rw [← Finset.mul_sum, sum_phase_sub]
      _ = (N : ℂ) * f m := by
          simp only [mul_ite, mul_zero]
          rw [Finset.sum_ite_eq' Finset.univ m fun p => f p * (N : ℂ)]
          rw [if_pos (Finset.mem_univ m)]
          ring
  rw [key]
  exact mul_div_cancel_left₀ (f m) hN0

lemma dft1_comb (N : ℕ) (a : Fin N → ℂ) (g : Fin N → Fin N → ℂ) (l : Fin N) :
    dft1 N (fun q => ∑ p : Fin N, a p * g p q) l = ∑ p : Fin N, a p * dft1 N (g p) l := by
  unfold dft1
  simp only [Finset.sum_mul, Finset.mul_sum]
  rw [Finset.sum_comm]
  refine Finset.sum_congr rfl fun p _ => Finset.sum_congr rfl fun q _ => by ring

lemma idft1_sum (N : ℕ) (h : Fin N → Fin N → ℂ) (m : Fin N) :
    ∑ n : Fin N, idft1 N (h n) m = idft1 N (fun k => ∑ n : Fin N, h n k) m := by
  unfold idft1
  rw [← Finset.sum_div]
  congr 1
  rw [Finset.sum_comm]
  refine Finset.sum_congr rfl fun k _ => ?_
  rw [Finset.sum_mul]

lemma sum_phase_fin (N : ℕ) (hN : 0 < N) (k : Fin N) :
    ∑ m : Fin N, phase N (((k : ℕ) : ℤ) * ((m : ℕ) : ℤ)) =
      if k = ⟨0, hN⟩ then (N : ℂ) else 0 := by
  have hz : ((((⟨0, hN⟩ : Fin N) : ℕ)) : ℤ) = 0 := by norm_num
  have h1 : ∀ m : Fin N, phase N (((k : ℕ) : ℤ) * ((m : ℕ) : ℤ)) =
      phase N (((m : ℕ) : ℤ) * (((k : ℕ) : ℤ) - (((⟨0, hN⟩ : Fin N) : ℕ) : ℤ))) := by
    intro m
    congr 1
    rw [hz]
    ring
  simp only [h1]
  rw [sum_phase_sub N k ⟨0, hN⟩]
  by_cases h : k = ⟨0, hN⟩
  · rw [if_pos h.symm, if_pos h]
  · rw [if_neg (fun hc => h hc.symm), if_neg h]

lemma sum_idft1 (N : ℕ) (hN : 0 < N) (f : Fin N → ℂ) :
    ∑ m : Fin N, idft1 N f m = f ⟨0, hN⟩ := by
  have hN0 : (N : ℂ) ≠ 0 := Nat.cast_ne_zero.mpr hN.ne'
  unfold idft1
  rw [← Finset.sum_div, Finset.sum_comm]
  have h1 : ∀ k : Fin N, ∑ m : Fin N, f k * phase N (((k : ℕ) : ℤ) * ((m : ℕ) : ℤ)) =
      if k = ⟨0, hN⟩ then f k * (N : ℂ) else 0 := by
    intro k
    rw [← Finset.mul_sum, sum_phase_fin N hN k]
    by_cases h : k = ⟨0, hN⟩
    · rw [if_pos h, if_pos h]
    · rw [if_neg h, if_neg h, mul_zero]
  simp only [h1]
  rw [Finset.sum_ite_eq' Finset.univ (⟨0, hN⟩ : Fin N) fun k => f k * (N : ℂ)]
  rw [if_pos (Finset.mem_univ _)]
  exact mul_div_cancel_right₀ _ hN0

lemma idft2_dft2 (N : ℕ) (c : Fin N → Fin N → ℂ) (m n : Fin N) :
    idft2 N (dft2 N c) m n = c m n := by
  unfold idft2
  have hmid : ∀ k : Fin N, idft1 N (dft2 N c k) n = dft1 N (fun p => c p n) k := by
    intro k
    have h1 : dft2 N c k = dft1 N (fun q => ∑ p : Fin N,
        phase N (-(((k : ℕ) : ℤ) * ((p : ℕ) : ℤ))) * c p q) := by
      funext l
      rw [dft1_comb N (fun p => phase N (-(((k : ℕ) : ℤ) * ((p : ℕ) : ℤ)))) c l]
      show ∑ p : Fin N, dft1 N (c p) l * phase N (-(((k : ℕ) : ℤ) * ((p : ℕ) : ℤ))) = _
      exact Finset.sum_congr rfl fun p _ => mul_comm _ _
    rw [h1, idft1_dft1]
    show ∑ p : Fin N, phase N (-(((k : ℕ) : ℤ) * ((p : ℕ) : ℤ))) * c p n = _
    unfold dft1
    exact Finset.sum_congr rfl fun p _ => mul_comm _ _
  have h2 : (fun k => idft1 N (dft2 N c k) n) = dft1 N (fun p => c p n) := funext hmid
  rw [h2, idft1_dft1]

lemma sum_idft2 (N : ℕ) (hN : 0 < N) (f : Fin N → Fin N → ℂ) :
    ∑ m : Fin N, ∑ n : Fin N, idft2 N f m n = f ⟨0, hN⟩ ⟨0, hN⟩ := by
  have h1 : ∀ m : Fin N, ∑ n : Fin N, idft2 N f m n =
      idft1 N (fun k => f k ⟨0, hN⟩) m := by
    intro m
    unfold idft2
    rw [idft1_sum N (fun n k => idft1 N (f k) n) m]
    congr 1
    funext k
    exact sum_idft1 N hN (f k)
  simp only [h1]
  exact sum_idft1 N hN fun k => f k ⟨0, hN⟩

lemma dft2_zero_zero (N : ℕ) (hN : 0 < N) (c : Fin N → Fin N → ℂ) :
    dft2 N c ⟨0, hN⟩ ⟨0, hN⟩ = ∑ p : Fin N, ∑ q : Fin N, c p q := by
  have hz : ((((⟨0, hN⟩ : Fin N) : ℕ)) : ℤ) = 0 := by norm_num
  unfold dft2 dft1
  refine Finset.sum_congr rfl fun p _ => ?_
  simp only [hz, zero_mul, neg_zero, phase_zero, mul_one]

lemma fold_zero (N : ℕ) (hN : 0 < N) : fold N 0 = 0 := by
  unfold fold
  rw [if_neg (by omega), if_neg (by omega)]
  norm_num

lemma laplacian_zero_zero (N : ℕ) (hN : 0 < N) : laplacian N 0 0 = 0 := by
  unfold laplacian kx
  rw [fold_zero N hN]
  simp

lemma laplacian_ofReal (N i j : ℕ) :
    laplacian N i j =
      (((-(((2 * Real.pi / (N : ℝ)) ^ 2) *
        (((fold N i : ℤ) : ℝ) ^ 2 + ((fold N j : ℤ) : ℝ) ^ 2)) * (N : ℝ) ^ 2 / SIZE ^ 2) : ℝ) : ℂ) := by
  unfold laplacian kx
  push_cast
  linear_combination ((2 * (Real.pi : ℂ) / (N : ℂ)) ^ 2 *
    (((fold N i : ℤ) : ℂ) ^ 2 + ((fold N j : ℤ) : ℂ) ^ 2) * (N : ℂ) ^ 2 /
      ((SIZE : ℂ)) ^ 2) * Complex.I_sq

/-! ## Claim theorems -/

/-- Claim C1 (amended): for every grid size N and index k below N, the folding
rule gives wavenumber k when 2k is below N, 0 exactly at the Nyquist index
2k = N, and k - N when 2k exceeds N; for N at least 3, index 1 folds to 1 and
index N - 1 folds to -1; for even N, index N / 2 folds to 0; each wavenumber
component is the purely imaginary number I times 2 pi / N times the folded
index, and the stored operator value is (kx^2 + ky^2) N^2 / SIZE^2, a real
number. -/
theorem fold_wavenumber_spec (N k : ℕ) (hk : k < N) :
    (2 * k < N → fold N k = (k : ℤ)) ∧
    (2 * k = N → fold N k = 0) ∧
    (N < 2 * k → fold N k = (k : ℤ) - (N : ℤ)) ∧
    (3 ≤ N → fold N 1 = 1 ∧ fold N (N - 1) = -1) ∧
    (N % 2 = 0 → fold N (N / 2) = 0) ∧
    (∀ i : ℕ, kx N i =
      ((((2 * Real.pi / (N : ℝ)) * ((fold N i : ℤ) : ℝ)) : ℝ) : ℂ) * Complex.I) ∧
    (∀ i j : ℕ, laplacian N i j =
      (((-(((2 * Real.pi / (N : ℝ)) ^ 2) *
        (((fold N i : ℤ) : ℝ) ^ 2 + ((fold N j : ℤ) : ℝ) ^ 2)) * (N : ℝ) ^ 2 / SIZE ^ 2) : ℝ) : ℂ)) := by
  refine ⟨?_, ?_, ?_, ?_, ?_, ?_, fun i j => laplacian_ofReal N i j⟩
  · intro h; unfold fold; split_ifs <;> omega
  · intro h; unfold fold; split_ifs <;> omega
  · intro h; unfold fold; split_ifs <;> omega
  · intro h3
    constructor
    · unfold fold; split_ifs <;> omega
    · unfold fold; split_ifs <;> omega
  · intro he; unfold fold; split_ifs <;> omega
  · intro i
    unfold kx
    push_cast
    ring

/-- Witness for fold_wavenumber_spec, evaluated on the grid N = 8. -/
theorem fold_wavenumber_spec_witness :
    fold 8 3 = 3 ∧ fold 8 4 = 0 ∧ fold 8 7 = -1 ∧ (fold 8 1 = 1 ∧ fold 8 (8 - 1) = -1) ∧
      fold 8 (8 / 2) = 0 := by
  refine ⟨(fold_wavenumber_spec 8 3 (by norm_num)).1 (by norm_num),
    (fold_wavenumber_spec 8 4 (by norm_num)).2.1 (by norm_num),
    ?_,
    (fold_wavenumber_spec 8 1 (by norm_num)).2.2.2.1 (by norm_num),
    (fold_wavenumber_spec 8 4 (by norm_num)).2.2.2.2.1 (by norm_num)⟩
  have h := (fold_wavenumber_spec 8 7 (by norm_num)).2.2.1 (by norm_num)
  simpa using h

/-- Counterexample for claim C1 as stated: on the grid N = 2 the index
N - 1 = 1 is the Nyquist index and folds to 0, not to -1 (and not to 1);
on the odd grid N = 3 the index N / 2 = 1 folds to 1, not to 0. -/
theorem fold_small_grid_cex :
    fold 2 1 = 0 ∧ fold 2 1 ≠ (1 : ℤ) - 2 ∧ fold 3 1 = 1 ∧ fold 3 (3 / 2) ≠ 0 := by
  decide

/-- Claim C2 (code bug): PFHub1aCustom::subproblem_name omits N4 from the
streamed tuple, so two parameter sets differing only in N4 share one identity
string, contradicting the claim that equal identity strings force all ten
coefficients to be equal. -/
theorem subproblem_name_omits_N4 :
    custom_subproblem_name 3 4 8 6 1 5 2 1 0 0 =
      custom_subproblem_name 3 4 8 99 1 5 2 1 0 0 ∧ (6 : ℤ) ≠ 99 :=
  ⟨rfl, by decide⟩

/-- Claim C3: the PFHub1aCHiMaD2023 initial condition equals the custom
generator instantiated with coefficients (3,4,8,6,1,5,2,1,0,0) at every node
of every grid, in both real and imaginary components. -/
theorem chimad_eq_custom_preset (gp i j : ℕ) :
    chimad_ic gp i j = custom_ic gp 3 4 8 6 1 5 2 1 0 0 i j := by
  unfold chimad_ic custom_ic
  congr 1
  push_cast
  norm_num
  ring_nf

/-- Claim C4: every laplacian entry has nonpositive real part and zero
imaginary part, so for dt at least 0 the step denominator
1 + dt * M * KAPPA * laplacian^2 has real part at least 1. -/
theorem laplacian_nonpos_denominator (N i j : ℕ) (dt : ℝ) (hdt : 0 ≤ dt) :
    (laplacian N i j).re ≤ 0 ∧ (laplacian N i j).im = 0 ∧
      1 ≤ ((1 : ℂ) + (dt : ℂ) * (M : ℂ) * (KAPPA : ℂ) *
        laplacian N i j * laplacian N i j).re := by
  have hL := laplacian_ofReal N i j
  set r : ℝ := -(((2 * Real.pi / (N : ℝ)) ^ 2) *
      (((fold N i : ℤ) : ℝ) ^ 2 + ((fold N j : ℤ) : ℝ) ^ 2)) * (N : ℝ) ^ 2 / SIZE ^ 2 with hr
  have hrle : r ≤ 0 := by
    have h1 : 0 ≤ (((2 * Real.pi / (N : ℝ)) ^ 2) *
        (((fold N i : ℤ) : ℝ) ^ 2 + ((fold N j : ℤ) : ℝ) ^ 2)) * (N : ℝ) ^ 2 / SIZE ^ 2 :=
      div_nonneg (by positivity) (sq_nonneg _)
    have h2 : r = -((((2 * Real.pi / (N : ℝ)) ^ 2) *
        (((fold N i : ℤ) : ℝ) ^ 2 + ((fold N j : ℤ) : ℝ) ^ 2)) * (N : ℝ) ^ 2 / SIZE ^ 2) := by
      rw [hr]
      ring
    rw [h2]
    exact neg_nonpos.mpr h1
  refine ⟨?_, ?_, ?_⟩
  · rw [hL, Complex.ofReal_re]
    exact hrle
  · rw [hL, Complex.ofReal_im]
  · rw [hL]
    have hcalc : (1 : ℂ) + (dt : ℂ) * (M : ℂ) * (KAPPA : ℂ) * ((r : ℝ) : ℂ) * ((r : ℝ) : ℂ) =
        (((1 + dt * M * KAPPA * r * r) : ℝ) : ℂ) := by
      push_cast
      ring
    rw [hcalc, Complex.ofReal_re]
    rw [show M = 5 from rfl, show KAPPA = 2 from rfl]
    nlinarith [mul_nonneg hdt (mul_self_nonneg r)]

/-- Witness for laplacian_nonpos_denominator at N = 4, i = 1, j = 2, dt = 1. -/
theorem laplacian_nonpos_denominator_witness :
    (laplacian 4 1 2).re ≤ 0 ∧ (laplacian 4 1 2).im = 0 ∧
      1 ≤ ((1 : ℂ) + ((1 : ℝ) : ℂ) * (M : ℂ) * (KAPPA : ℂ) *
        laplacian 4 1 2 * laplacian 4 1 2).re :=
  laplacian_nonpos_denominator 4 1 2 1 zero_le_one

/-- Claim C5: with the initialized spectral operator, one invocation of step
preserves the grid average of the real component of c exactly (transforms
modelled as the exact DFT pair): the zero-wavenumber mode, where the operator
value is 0, is left unchanged by the frequency-domain update. -/
theorem step_preserves_average (N : ℕ) (hN : 0 < N) (dt : ℝ) (hdt : 0 ≤ dt) (s : PFState N)
    (hL : ∀ i j : Fin N, s.laplacian i j = laplacian N (i : ℕ) (j : ℕ)) :
    (∑ i : Fin N, ∑ j : Fin N, ((stepS N dt s).c i j).re) / ((N : ℝ) * (N : ℝ)) =
      (∑ i : Fin N, ∑ j : Fin N, (s.c i j).re) / ((N : ℝ) * (N : ℝ)) := by
  have hstep : (stepS N dt s).c = idft2 N (fun a b =>
      (dft2 N s.c a b + (dt : ℂ) * (M : ℂ) * s.laplacian a b *
        dft2 N (fun p q => calc_dfdc (s.c p q)) a b) /
      (1 + (dt : ℂ) * (M : ℂ) * (KAPPA : ℂ) * s.laplacian a b * s.laplacian a b)) := rfl
  have hsum : ∑ i : Fin N, ∑ j : Fin N, (stepS N dt s).c i j =
      ∑ i : Fin N, ∑ j : Fin N, s.c i j := by
    rw [hstep, sum_idft2 N hN]
    have hL0 : s.laplacian ⟨0, hN⟩ ⟨0, hN⟩ = 0 := by
      rw [hL ⟨0, hN⟩ ⟨0, hN⟩]
      exact laplacian_zero_zero N hN
    simp only [hL0, mul_zero, zero_mul, add_zero, div_one]
    exact dft2_zero_zero N hN s.c
  have h2 : ∑ i : Fin N, ∑ j : Fin N, ((stepS N dt s).c i j).re =
      ∑ i : Fin N, ∑ j : Fin N, (s.c i j).re := by
    have h3 := congrArg Complex.re hsum
    simpa [Complex.re_sum] using h3
  rw [h2]

/-- Witness for step_preserves_average on a one-node grid with dt = 1. -/
theorem step_preserves_average_witness :
    (∑ i : Fin 1, ∑ j : Fin 1, ((stepS 1 1 witnessState).c i j).re) /
        (((1 : ℕ) : ℝ) * ((1 : ℕ) : ℝ)) =
      (∑ i : Fin 1, ∑ j : Fin 1, (witnessState.c i j).re) /
        (((1 : ℕ) : ℝ) * ((1 : ℕ) : ℝ)) :=
  step_preserves_average 1 one_pos 1 zero_le_one witnessState fun i j => rfl

/-- Claim C6: a step with dt = 0 leaves every real and imaginary component of
c unchanged (transforms modelled as the exact DFT pair): the correction term
vanishes and the denominator equals 1 at every node. -/
theorem step_zero_dt_identity (N : ℕ) (s : PFState N) (i j : Fin N) :
    (stepS N 0 s).c i j = s.c i j := by
  have hstep : (stepS N 0 s).c = idft2 N (fun a b =>
      (dft2 N s.c a b + ((0 : ℝ) : ℂ) * (M : ℂ) * s.laplacian a b *
        dft2 N (fun p q => calc_dfdc (s.c p q)) a b) /
      (1 + ((0 : ℝ) : ℂ) * (M : ℂ) * (KAPPA : ℂ) * s.laplacian a b * s.laplacian a b)) := rfl
  have h1 : (fun a b =>
      (dft2 N s.c a b + ((0 : ℝ) : ℂ) * (M : ℂ) * s.laplacian a b *
        dft2 N (fun p q => calc_dfdc (s.c p q)) a b) /
      (1 + ((0 : ℝ) : ℂ) * (M : ℂ) * (KAPPA : ℂ) * s.laplacian a b * s.laplacian a b)) =
      dft2 N s.c := by
    funext a b
    simp
  rw [hstep, h1, idft2_dft2]

/-- Claim C7: the chemical potential vanishes exactly at the equilibrium
compositions: calc_dfdc evaluates to 0 at c = C_ALPHA and at c = C_BETA. -/
theorem dfdc_zero_at_equilibria (c : ℂ) (h : c = (C_ALPHA : ℂ) ∨ c = (C_BETA : ℂ)) :
    calc_dfdc c = 0 := by
  rcases h with h | h <;> (subst h; unfold calc_dfdc; ring)

/-- Witness for dfdc_zero_at_equilibria at c = C_ALPHA. -/
theorem dfdc_zero_at_equilibria_witness : calc_dfdc ((C_ALPHA : ℝ) : ℂ) = 0 :=
  dfdc_zero_at_equilibria _ (Or.inl rfl)

/-- Claim C8 (amended): the custom generator with all ten coefficients 0
produces the uniform value 0.5 + 0.01 * (1 + 1 + 1 + 0 + 0) = 0.53 with zero
imaginary component at every node of every grid. -/
theorem custom_ic_all_zero_uniform (gp i j : ℕ) :
    custom_ic gp 0 0 0 0 0 0 0 0 0 0 i j = ((0.53 : ℝ) : ℂ) := by
  unfold custom_ic
  congr 1
  push_cast
  norm_num

/-- Counterexample for claim C8 as stated: the uniform value of the all-zero
custom generator is 0.53, not 0.54. -/
theorem custom_ic_all_zero_cex :
    custom_ic 96 0 0 0 0 0 0 0 0 0 0 0 0 ≠ ((0.54 : ℝ) : ℂ) := by
  unfold custom_ic
  intro hc
  rw [Complex.ofReal_inj] at hc
  push_cast at hc
  norm_num at hc

/-- Claim C9: the spectral operator field is written only by initialize;
calc_dfdc and any number of step invocations leave every entry of the
laplacian field unchanged, whatever the field contents. -/
theorem laplacian_frame_invariant (N : ℕ) (dt : ℝ) (ic : ℕ → ℕ → ℂ) :
    (∀ s : PFState N, (initializeS N ic s).laplacian =
      fun i j : Fin N => laplacian N (i : ℕ) (j : ℕ)) ∧
    (∀ s : PFState N, (calc_dfdcS N s).laplacian = s.laplacian) ∧
    (∀ (n : ℕ) (s : PFState N), ((stepS N dt)^[n] s).laplacian = s.laplacian) := by
  refine ⟨fun s => rfl, fun s => rfl, fun n => ?_⟩
  induction n with
  | zero => exact fun s => rfl
  | succ n ih =>
    intro s
    rw [Function.iterate_succ_apply]
    exact (ih (stepS N dt s)).trans rfl

/-- Claim C10: the spectral operator is symmetric under exchange of the two
grid indices: laplacian(i, j) = laplacian(j, i). -/
theorem laplacian_symm (N i j : ℕ) : laplacian N i j = laplacian N j i := by
  unfold laplacian
  ring

end CabanaPF
